import Mathlib

/-!
Verification of the confedit configuration reconciliation engine.

The Go sources are shallowly embedded: byte strings become `List Char`,
`map[string]interface{}` values become the inductive `GoVal` with
association-list maps, and each Go function is translated into a Lean
function of the same name.
-/

set_option maxHeartbeats 1000000

/-- Characters treated as inline whitespace by the INI parser (space and tab). -/
def isSpaceTab (c : Char) : Bool := c = ' ' ∨ c = '\t'

/-- Model of Go dynamic values (`interface{}`): strings, ints, bools and
nested string-keyed maps, the shapes the configuration engine manipulates. -/
inductive GoVal where
  | str : List Char → GoVal
  | strs : List (List Char) → GoVal
  | int : Int → GoVal
  | bool : Bool → GoVal
  | map : List (List Char × GoVal) → GoVal
deriving Repr

instance : Inhabited GoVal := ⟨GoVal.str []⟩

/-- A Go `map[string]interface{}` as an association list with unique keys
maintained by `insertA`. -/
abbrev GoMapL := List (List Char × GoVal)

/-- First-match association lookup, the model of Go map indexing. -/
def lookupA (m : GoMapL) (k : List Char) : Option GoVal :=
  match m with
  | [] => none
  | (k', v) :: rest => if k' = k then some v else lookupA rest k

/-- Go map assignment `m[k] = v`: replace the binding in place if the key
exists, otherwise append it. -/
def insertA (m : GoMapL) (k : List Char) (v : GoVal) : GoMapL :=
  match m with
  | [] => [(k, v)]
  | (k', v') :: rest => if k' = k then (k', v) :: rest else (k', v') :: insertA rest k v

mutual
/-- Structural equality of dynamic values, the model of `reflect.DeepEqual`. -/
def GoVal.deepEq : GoVal → GoVal → Bool
  | .str a, .str b => a = b
  | .strs a, .strs b => a = b
  | .int a, .int b => a = b
  | .bool a, .bool b => a = b
  | .map a, .map b => GoVal.deepEqEntries a b
  | _, _ => false

/-- Entrywise structural equality of map association lists. -/
def GoVal.deepEqEntries : GoMapL → GoMapL → Bool
  | [], [] => true
  | (k, v) :: r, (k', v') :: r' => k = k' && GoVal.deepEq v v' && GoVal.deepEqEntries r r'
  | _, _ => false
end

mutual
theorem GoVal.deepEq_refl : ∀ v : GoVal, GoVal.deepEq v v = true
  | .str a => by simp [GoVal.deepEq]
  | .strs a => by simp [GoVal.deepEq]
  | .int a => by simp [GoVal.deepEq]
  | .bool a => by simp [GoVal.deepEq]
  | .map a => by simp [GoVal.deepEq]; exact GoVal.deepEqEntries_refl a

theorem GoVal.deepEqEntries_refl : ∀ m : GoMapL, GoVal.deepEqEntries m m = true
  | [] => by simp [GoVal.deepEqEntries]
  | (k, v) :: r => by
      simp [GoVal.deepEqEntries]
      exact ⟨GoVal.deepEq_refl v, GoVal.deepEqEntries_refl r⟩
end

/-! ## Scanner model

`RelaxedINIParser.Parse` reads its input through `bufio.Scanner` with the
default `ScanLines` split function and the default buffer: tokens are the
segments between newline bytes, with one trailing carriage return dropped
from each token, and a segment that reaches `MaxScanTokenSize` (64 KiB)
bytes with no newline overflows the buffer before a token can be produced,
so `Scan` stops and `scanner.Err()` is `bufio.ErrTooLong`.  With an
in-memory `bytes.Reader` that is the only possible scanner error.
`scanLinesGo`/`scanLines` give the unbounded split; `scanGoB`/`scanLinesB`
add the token-size bound and are what `Parse` is built on. -/

/-- `bufio.dropCR`: strip one terminal carriage return from a token. -/
def dropCR (l : List Char) : List Char :=
  if l.getLast? = some '\r' then l.dropLast else l

/-- The scan loop: accumulate the current token (in reverse) until a newline
or the end of the input.  A newline that ends the input produces no further
token, matching `bufio.Scanner`'s end-of-input behaviour. -/
def scanLinesGo (acc : List Char) : List Char → List (List Char)
  | [] => [dropCR acc.reverse]
  | c :: cs =>
    if c = '\n' then
      if cs = [] then [dropCR acc.reverse]
      else dropCR acc.reverse :: scanLinesGo [] cs
    else scanLinesGo (c :: acc) cs

/-- The unbounded `bufio.ScanLines` split: the list of line tokens of the
input, each with a trailing carriage return removed.  An input not ending in
a newline still yields its final partial line; an empty input yields none. -/
def scanLines (data : List Char) : List (List Char) :=
  match data with
  | [] => []
  | _ => scanLinesGo [] data

/-- `bufio.MaxScanTokenSize`: the default cap on a token's size. -/
def maxScanTokenSize : Nat := 64 * 1024

/-- The scan loop with the default buffer bound: accumulating
`MaxScanTokenSize` bytes of one line with no newline fills the buffer before
a token can be produced, so scanning stops with `bufio.ErrTooLong` (`true`
in the second component) and only the previously produced tokens. -/
def scanGoB (acc : List Char) : List Char → List (List Char) × Bool
  | [] => ([dropCR acc.reverse], false)
  | c :: cs =>
    if c = '\n' then
      if cs = [] then ([dropCR acc.reverse], false)
      else
        let r := scanGoB [] cs
        (dropCR acc.reverse :: r.1, r.2)
    else
      if maxScanTokenSize ≤ acc.length + 1 then ([], true)
      else scanGoB (c :: acc) cs

/-- The scanner as `Parse` drives it: the tokens produced and whether
`scanner.Err()` is `bufio.ErrTooLong`. -/
def scanLinesB (data : List Char) : List (List Char) × Bool :=
  match data with
  | [] => ([], false)
  | _ => scanGoB [] data

/-- Every newline-free run of the input, continuing one of length `n`,
stays strictly below `MaxScanTokenSize` — the inputs on which the scanner
produces all tokens without `ErrTooLong`. -/
def runsBelow (n : Nat) : List Char → Bool
  | [] => true
  | c :: cs =>
    if c = '\n' then runsBelow 0 cs
    else decide (n + 1 < maxScanTokenSize) && runsBelow (n + 1) cs

/-! ## INI line model (`iniparser/ini.go`) -/

/-- Drop trailing spaces and tabs, as the parser does on the key span. -/
def rtrimWs (l : List Char) : List Char := (l.reverse.dropWhile isSpaceTab).reverse

/-- The trailing run of spaces and tabs of a list. -/
def trailWs (l : List Char) : List Char := (l.reverse.takeWhile isSpaceTab).reverse

/-- `INILine`: one source line with all its components.  `CommentMark`
models the Go field `CommentPrefix` (the comment character plus the blanks
that follow it). -/
structure INILine where
  Section : List Char := []
  Key : List Char := []
  Value : List Char := []
  Indent : List Char := []
  Delimiter : List Char := []
  Suffix : List Char := []
  CommentMark : List Char := []
  Original : List Char := []
  IsEmpty : Bool := false
  IsSection : Bool := false
deriving Repr, DecidableEq

/-- `RelaxedINIParser.parseLine`: tokenize a single line (already split by
the scanner) given the current section. -/
def parseLine (commentChars : List Char) (delim : Char) (lineBytes : List Char)
    (sect : List Char) : INILine :=
  if lineBytes = [] then { Original := lineBytes, Section := sect, IsEmpty := true }
  else
    let indent := lineBytes.takeWhile isSpaceTab
    match lineBytes.dropWhile isSpaceTab with
    | [] => { Original := lineBytes, Section := sect, Indent := indent, IsEmpty := true }
    | c :: afterC =>
      if commentChars.contains c then
        let sp := afterC.takeWhile isSpaceTab
        match afterC.dropWhile isSpaceTab with
        | [] => { Original := lineBytes, Section := sect, Indent := indent, CommentMark := c :: sp }
        | rest2 => { Original := lineBytes, Section := sect, Indent := indent,
                     CommentMark := c :: sp, Key := rest2 }
      else if c = '[' then
        let inner := afterC.takeWhile (· ≠ ']')
        match afterC.dropWhile (· ≠ ']') with
        | _ :: suffix =>
          { Original := lineBytes, Section := inner, Indent := indent, IsSection := true,
            Suffix := suffix }
        | [] =>
          { Original := lineBytes, Section := afterC, Indent := indent, IsSection := true }
      else
        let rest := c :: afterC
        let keySpan := rest.takeWhile (· ≠ delim)
        match rest.dropWhile (· ≠ delim) with
        | _ :: afterD =>
          { Original := lineBytes, Section := sect, Indent := indent,
            Key := rtrimWs keySpan,
            Delimiter := trailWs keySpan ++ delim :: afterD.takeWhile isSpaceTab,
            Value := afterD.dropWhile isSpaceTab }
        | [] =>
          { Original := lineBytes, Section := sect, Indent := indent, Key := rest }

/-- `RelaxedINIParser.writeLine`: serialize one line, ending in a newline
(`fmt.Fprintln`). -/
def writeLine (useSpacing : Bool) (delim : Char) (line : INILine) : List Char :=
  if line.IsEmpty ∨ (line.CommentMark ≠ [] ∧ line.Key = []) then line.Original ++ ['\n']
  else
    let b := line.Indent ++ line.CommentMark
    if line.IsSection then
      b ++ '[' :: line.Section ++ ']' :: line.Suffix ++ ['\n']
    else
      let body :=
        if line.Key ≠ [] then
          line.Key ++
            (if line.Delimiter ≠ [] then line.Delimiter ++ line.Value
             else if line.Value ≠ [] then
               (if useSpacing then [' ', delim, ' '] else [delim]) ++ line.Value
             else [])
        else []
      b ++ body ++ line.Suffix ++ ['\n']

/-- The scan loop of `RelaxedINIParser.Parse`: parse each token, threading
the current section. -/
def parseLinesGo (commentChars : List Char) (delim : Char) :
    List (List Char) → List Char → List INILine
  | [], _ => []
  | t :: ts, cur =>
    let pl := parseLine commentChars delim t cur
    pl :: parseLinesGo commentChars delim ts (if pl.IsSection then pl.Section else cur)

/-- Default comment characters of `NewRelaxedINIParser`. -/
def defaultCommentChars : List Char := ['#', ';']

/-- `RelaxedINIParser.Parse` at the default configuration: the line vector
built from the tokens the bounded scanner produced. -/
def iniParse (data : List Char) : List INILine :=
  parseLinesGo defaultCommentChars '=' (scanLinesB data).1 []

/-- `Parse` with its error result (`return p.lines, scanner.Err()` as an
`Except`): `bufio.ErrTooLong` when a line overflows the default buffer,
otherwise the parsed line vector. -/
def iniParseE (data : List Char) : Except (List Char) (List INILine) :=
  if (scanLinesB data).2 then Except.error "bufio.Scanner: token too long".toList
  else Except.ok (iniParse data)

/-- `RelaxedINIParser.Serialize`: write every line in order. -/
def serializeLines (useSpacing : Bool) (delim : Char) (lines : List INILine) : List Char :=
  (lines.map (writeLine useSpacing delim)).flatten

/-- The loop body of `RelaxedINIParser.UpdateValue`, threading the current
section; the first line (of any kind other than a section header) whose
section and `Key` match receives the new value and the scan stops. -/
def updateValueGo (sec key newV : List Char) : List INILine → List Char → List INILine
  | [], _ => []
  | l :: ls, cur =>
    if l.IsSection then l :: updateValueGo sec key newV ls l.Section
    else if cur = sec ∧ l.Key = key then { l with Value := newV } :: ls
    else l :: updateValueGo sec key newV ls cur

/-- `RelaxedINIParser.UpdateValue`. -/
def UpdateValue (lines : List INILine) (sec key newV : List Char) : List INILine :=
  updateValueGo sec key newV lines []

/-! ## Per-line round-trip -/

/-- A raw line is benign for the round-trip when it does not start (after
leading blanks) with the delimiter and, when it opens a section, the
closing bracket is present. -/
def lineGood (t : List Char) : Bool :=
  match t.dropWhile isSpaceTab with
  | [] => true
  | c :: cs => decide (c ≠ '=') && (if c = '[' then cs.contains ']' else true)

theorem dropWhile_head_false {p : Char → Bool} :
    ∀ {l : List Char} {c : Char} {cs : List Char}, l.dropWhile p = c :: cs → p c = false := by
  intro l
  induction l with
  | nil => intro c cs h; simp [List.dropWhile] at h
  | cons a as ih =>
    intro c cs h
    by_cases hp : p a
    · rw [List.dropWhile_cons_of_pos hp] at h; exact ih h
    · rw [List.dropWhile_cons_of_neg hp] at h
      cases h; simpa using hp

theorem rtrimWs_append_trailWs (l : List Char) : rtrimWs l ++ trailWs l = l := by
  unfold rtrimWs trailWs
  rw [← List.reverse_append, List.takeWhile_append_dropWhile, List.reverse_reverse]

theorem rtrimWs_ne_nil {c : Char} (hc : isSpaceTab c = false) (xs : List Char) :
    rtrimWs (c :: xs) ≠ [] := by
  unfold rtrimWs
  intro h
  rw [List.reverse_eq_nil_iff, List.dropWhile_eq_nil_iff] at h
  have := h c (by simp)
  rw [hc] at this
  exact Bool.false_ne_true this

/-- Round-trip of a single benign line: writing back the parsed line
reproduces it, with the newline the serializer appends. -/
theorem writeLine_parseLine_good (us : Bool) (t sec : List Char) (h : lineGood t = true) :
    writeLine us '=' (parseLine defaultCommentChars '=' t sec) = t ++ ['\n'] := by
  by_cases ht : t = []
  · subst ht; simp [parseLine, writeLine]
  · cases hdrop : t.dropWhile isSpaceTab with
    | nil =>
      simp only [parseLine, if_neg ht, hdrop]
      simp [writeLine]
    | cons c cs =>
      have hsplit : t.takeWhile isSpaceTab ++ c :: cs = t := by
        rw [← hdrop, List.takeWhile_append_dropWhile]
      have hcws : isSpaceTab c = false := dropWhile_head_false hdrop
      unfold lineGood at h
      rw [hdrop] at h
      simp only [Bool.and_eq_true, decide_eq_true_eq] at h
      obtain ⟨hcne, hsec⟩ := h
      simp only [parseLine, if_neg ht, hdrop]
      by_cases hcom : defaultCommentChars.contains c
      · rw [if_pos hcom]
        cases hrest2 : cs.dropWhile isSpaceTab with
        | nil =>
          simp [writeLine]
        | cons r rs =>
          have hcs : cs.takeWhile isSpaceTab ++ r :: rs = cs := by
            rw [← hrest2, List.takeWhile_append_dropWhile]
          conv_rhs => rw [← hsplit, ← hcs]
          simp [writeLine, List.append_assoc]
      · rw [if_neg hcom]
        by_cases hbr : c = '['
        · rw [if_pos hbr]
          subst hbr
          rw [if_pos rfl] at hsec
          have hmem : ']' ∈ cs := by simpa using hsec
          have hdne : cs.dropWhile (· ≠ ']') ≠ [] := by
            intro hnil
            rw [List.dropWhile_eq_nil_iff] at hnil
            have := hnil ']' hmem
            simp at this
          cases hd : cs.dropWhile (· ≠ ']') with
          | nil => exact absurd hd hdne
          | cons d ds =>
            have hdeq : d = ']' := by
              have := dropWhile_head_false hd
              simpa using this
            have hcs2 : cs.takeWhile (· ≠ ']') ++ d :: ds = cs := by
              rw [← hd, List.takeWhile_append_dropWhile]
            subst hdeq
            conv_rhs => rw [← hsplit, ← hcs2]
            simp [writeLine, List.append_assoc]
        · rw [if_neg hbr]
          cases hd : (c :: cs).dropWhile (· ≠ '=') with
          | nil =>
            conv_rhs => rw [← hsplit]
            simp [writeLine, List.append_assoc]
          | cons d ds =>
            have hdeq : d = '=' := by
              have := dropWhile_head_false hd
              simpa using this
            have hks : (c :: cs).takeWhile (· ≠ '=') ++ d :: ds = c :: cs := by
              rw [← hd, List.takeWhile_append_dropWhile]
            have hkcons : (c :: cs).takeWhile (· ≠ '=') =
                c :: cs.takeWhile (· ≠ '=') := by
              rw [List.takeWhile_cons_of_pos]
              simpa using hcne
            have hkne : rtrimWs ((c :: cs).takeWhile (· ≠ '=')) ≠ [] := by
              rw [hkcons]; exact rtrimWs_ne_nil hcws _
            have hdelimne :
                trailWs ((c :: cs).takeWhile (· ≠ '=')) ++ '=' :: ds.takeWhile isSpaceTab ≠ [] := by
              simp
            have h1 : rtrimWs ((c :: cs).takeWhile (· ≠ '=')) ++
                trailWs ((c :: cs).takeWhile (· ≠ '=')) = (c :: cs).takeWhile (· ≠ '=') :=
              rtrimWs_append_trailWs _
            have h2 : ds.takeWhile isSpaceTab ++ ds.dropWhile isSpaceTab = ds :=
              List.takeWhile_append_dropWhile isSpaceTab ds
            subst hdeq
            conv_rhs => rw [← hsplit, ← hks, ← h1, ← h2]
            simp [writeLine, hdelimne, List.append_assoc]
            rw [if_neg (by simpa using hkne)]
            simp [List.append_assoc]

/-! ## Whole-input round-trip -/

theorem dropCR_of_not_mem {t : List Char} (h : '\r' ∉ t) : dropCR t = t := by
  unfold dropCR
  cases hl : t.getLast? with
  | none => simp
  | some c =>
    by_cases hc : c = '\r'
    · subst hc
      have hmem : '\r' ∈ t := by
        obtain ⟨hne, heq⟩ := List.mem_getLast?_eq_getLast (l := t) (x := '\r') (by simp [hl])
        exact heq ▸ List.getLast_mem hne
      exact absurd hmem h
    · simp [hc]

theorem scanLinesGo_nil (acc : List Char) : scanLinesGo acc [] = [dropCR acc.reverse] := rfl

theorem scanLinesGo_newline_end (acc : List Char) :
    scanLinesGo acc ['\n'] = [dropCR acc.reverse] := rfl

theorem scanLinesGo_newline (acc : List Char) (d : Char) (ds : List Char) :
    scanLinesGo acc ('\n' :: d :: ds) = dropCR acc.reverse :: scanLinesGo [] (d :: ds) := by
  simp [scanLinesGo]

theorem scanLinesGo_other (acc : List Char) {c : Char} (cs : List Char) (hc : c ≠ '\n') :
    scanLinesGo acc (c :: cs) = scanLinesGo (c :: acc) cs := by
  simp [scanLinesGo, hc]

theorem scanLinesGo_join : ∀ (data acc : List Char), '\r' ∉ data → '\r' ∉ acc →
    ((scanLinesGo acc data).map (· ++ ['\n'])).flatten = acc.reverse ++ data ∨
      ((scanLinesGo acc data).map (· ++ ['\n'])).flatten = acc.reverse ++ data ++ ['\n'] := by
  intro data
  induction data with
  | nil =>
    intro acc _ hacc
    right
    rw [scanLinesGo, dropCR_of_not_mem (by simpa using hacc)]
    simp
  | cons c cs ih =>
    intro acc hdata hacc
    by_cases hc : c = '\n'
    · subst hc
      cases cs with
      | nil =>
        left
        rw [scanLinesGo_newline_end, dropCR_of_not_mem (by simpa using hacc)]
        simp
      | cons d ds =>
        rw [scanLinesGo_newline, dropCR_of_not_mem (by simpa using hacc)]
        have hcs : '\r' ∉ d :: ds := fun hm => hdata (List.mem_cons_of_mem _ hm)
        rcases ih [] hcs (by simp) with hrec | hrec
        · left
          simp only [List.map_cons, List.flatten_cons]
          rw [hrec]
          simp
        · right
          simp only [List.map_cons, List.flatten_cons]
          rw [hrec]
          simp
    · have hcs : '\r' ∉ cs := fun hm => hdata (List.mem_cons_of_mem _ hm)
      have hacc' : '\r' ∉ c :: acc := by
        intro hm
        rcases List.mem_cons.mp hm with rfl | hm
        · exact hdata (by simp)
        · exact hacc hm
      rw [scanLinesGo_other acc cs hc]
      rcases ih (c :: acc) hcs hacc' with hrec | hrec
      · left; rw [hrec]; simp
      · right; rw [hrec]; simp

/-- Joining the scanner's tokens with newlines recovers the input, up to a
final newline, whenever no carriage returns were stripped. -/
theorem scanLines_join (B : List Char) (hcr : '\r' ∉ B) :
    ((scanLines B).map (· ++ ['\n'])).flatten = B ∨
      ((scanLines B).map (· ++ ['\n'])).flatten = B ++ ['\n'] := by
  cases hB : B with
  | nil => left; simp [scanLines]
  | cons c cs =>
    have := scanLinesGo_join (c :: cs) [] (hB ▸ hcr) (by simp)
    simpa [scanLines] using this

/-- Serializing the parsed token list reproduces the newline-joined tokens
when every token is benign; the threaded current section is irrelevant. -/
theorem serialize_parseLinesGo (us : Bool) :
    ∀ (toks : List (List Char)) (cur : List Char),
      (∀ t ∈ toks, lineGood t = true) →
      serializeLines us '=' (parseLinesGo defaultCommentChars '=' toks cur) =
        (toks.map (· ++ ['\n'])).flatten := by
  intro toks
  induction toks with
  | nil => intro cur _; simp [serializeLines, parseLinesGo]
  | cons t ts ih =>
    intro cur hg
    simp only [parseLinesGo, serializeLines, List.map_cons, List.flatten_cons]
    rw [writeLine_parseLine_good us t cur (hg t (by simp))]
    have h2 := ih (if (parseLine defaultCommentChars '=' t cur).IsSection
        then (parseLine defaultCommentChars '=' t cur).Section else cur)
      (fun x hx => hg x (by simp [hx]))
    simp only [serializeLines] at h2
    rw [h2]

/-! ## Deep merge (`utils.DeepMerge`) and target configs -/

mutual
/-- `utils.DeepMerge` on a single value pair: recurse when both sides are
maps, otherwise the new value wins. -/
def deepMergeVal : GoVal → GoVal → GoVal
  | .map em, .map nm => .map (deepMergeEntries em nm)
  | _, n => n

/-- `utils.DeepMerge`: fold the new entries into the existing map. -/
def deepMergeEntries : GoMapL → GoMapL → GoMapL
  | em, [] => em
  | em, (k, nv) :: rest =>
    deepMergeEntries
      (match lookupA em k with
       | some ev => insertA em k (deepMergeVal ev nv)
       | none => insertA em k nv) rest
end

/-- The file target's `Config` (`internal/features/file/types.go`). -/
structure FileConfig where
  path : List Char := []
  format : List Char := []
  owner : List Char := []
  group : List Char := []
  mode : List Char := []
  backup : Bool := false
  content : GoMapL := []
  options : GoMapL := []

/-- `file.MergeConfig`: deep-merge `content` and `options`, overwrite the
scalar fields with non-empty incoming values.  The Go function contains no
clause for `Backup`, so the merged flag is the existing one. -/
def fileMergeConfig (existing newT : FileConfig) : FileConfig :=
  { existing with
      content := deepMergeEntries existing.content newT.content
      options := deepMergeEntries existing.options newT.options
      path := if newT.path ≠ [] then newT.path else existing.path
      format := if newT.format ≠ [] then newT.format else existing.format
      owner := if newT.owner ≠ [] then newT.owner else existing.owner
      group := if newT.group ≠ [] then newT.group else existing.group
      mode := if newT.mode ≠ [] then newT.mode else existing.mode }

/-- The dconf target's `Config`. -/
structure DconfConfig where
  user : List Char := []
  schema : List Char := []
  settings : GoMapL := []

/-- `dconf.MergeConfig`: merge `settings`, overwrite non-empty
`schema`/`user`. -/
def dconfMergeConfig (existing newT : DconfConfig) : DconfConfig :=
  { existing with
      settings := deepMergeEntries existing.settings newT.settings
      schema := if newT.schema ≠ [] then newT.schema else existing.schema
      user := if newT.user ≠ [] then newT.user else existing.user }

/-- The systemd target's `Config` (`sectionName` models the Go field
`Section`). -/
structure SystemdConfig where
  unit : List Char := []
  sectionName : List Char := []
  properties : GoMapL := []
  reload : Bool := false

/-- `systemd.MergeConfig`: merge `properties`, overwrite non-empty
`unit`/`section`, and set `reload` when either side has it. -/
def systemdMergeConfig (existing newT : SystemdConfig) : SystemdConfig :=
  { existing with
      properties := deepMergeEntries existing.properties newT.properties
      unit := if newT.unit ≠ [] then newT.unit else existing.unit
      sectionName := if newT.sectionName ≠ [] then newT.sectionName else existing.sectionName
      reload := if newT.reload then true else existing.reload }

/-- The sed target's `Config`. -/
structure SedConfig where
  path : List Char := []
  commands : List (List Char) := []
  backup : Bool := false

/-- The four target config variants. -/
inductive TargetConfig where
  | file : FileConfig → TargetConfig
  | dconf : DconfConfig → TargetConfig
  | systemd : SystemdConfig → TargetConfig
  | sed : SedConfig → TargetConfig

/-- The type tag of a config variant (`GetType`). -/
def TargetConfig.typeName : TargetConfig → List Char
  | .file _ => "file".toList
  | .dconf _ => "dconf".toList
  | .systemd _ => "systemd".toList
  | .sed _ => "sed".toList

/-- A target: name, metadata and typed config (`types.BaseTarget`). -/
structure Target where
  name : List Char
  metadata : GoMapL := []
  config : TargetConfig

/-- `Target.GetType`. -/
def Target.ttype (t : Target) : List Char := t.config.typeName

/-- `CueDataLoader.mergeTargets`: deep-merge metadata, reject differing
types, then dispatch on the type; the switch has no sed case, so sed
targets fall to the `unsupported` error. -/
def mergeTargets (existing newT : Target) : Except (List Char) Target :=
  let md := deepMergeEntries existing.metadata newT.metadata
  if existing.ttype ≠ newT.ttype then
    .error "cannot merge targets of different types".toList
  else
    match existing.config, newT.config with
    | .file a, .file b =>
      .ok { existing with metadata := md, config := .file (fileMergeConfig a b) }
    | .dconf a, .dconf b =>
      .ok { existing with metadata := md, config := .dconf (dconfMergeConfig a b) }
    | .systemd a, .systemd b =>
      .ok { existing with metadata := md, config := .systemd (systemdMergeConfig a b) }
    | _, _ => .error "unsupported target type for merging: sed".toList

/-- The per-target step of `CueDataLoader.Load`: merge into the like-named
existing target or append. -/
def insertTarget : List Target → Target → Except (List Char) (List Target)
  | [], t => .ok [t]
  | a :: as, t =>
    if a.name = t.name then (mergeTargets a t).map (· :: as)
    else (insertTarget as t).map (a :: ·)

/-- The accumulator loop of `CueDataLoader.Load`'s target merging, failing
fast on a merge error. -/
def loadTargetsGo (acc : List Target) : List Target → Except (List Char) (List Target)
  | [] => .ok acc
  | t :: ts =>
    match insertTarget acc t with
    | .ok acc2 => loadTargetsGo acc2 ts
    | .error e => .error e

/-- The target-merging loop of `CueDataLoader.Load` over the decoded
per-file target lists, in file order. -/
def loadTargets (files : List (List Target)) : Except (List Char) (List Target) :=
  loadTargetsGo [] files.flatten

/-! ## Bounded scanner versus unbounded split -/

theorem scanGoB_eq_unbounded : ∀ (cs acc : List Char),
    runsBelow acc.length cs = true → scanGoB acc cs = (scanLinesGo acc cs, false) := by
  intro cs
  induction cs with
  | nil => intro acc _; rfl
  | cons c cs2 ih =>
    intro acc h
    rw [runsBelow] at h
    by_cases hc : c = '\n'
    · subst hc
      rw [if_pos rfl] at h
      cases cs2 with
      | nil => rfl
      | cons d ds =>
        have hr := ih [] (by simpa using h)
        rw [scanGoB]
        simp only [if_pos rfl, if_neg (by simp : ¬(d :: ds = []))]
        rw [scanLinesGo_newline, hr]
        simp
    · rw [if_neg hc, Bool.and_eq_true, decide_eq_true_eq] at h
      obtain ⟨hlt, h2⟩ := h
      rw [scanGoB, if_neg hc, if_neg (by omega : ¬ (maxScanTokenSize ≤ acc.length + 1))]
      rw [scanLinesGo_other acc cs2 hc]
      exact ih (c :: acc) (by simpa using h2)

/-- When every line stays below the token bound, the bounded scanner agrees
with the unbounded split and reports no error. -/
theorem scanLinesB_eq (B : List Char) (h : runsBelow 0 B = true) :
    scanLinesB B = (scanLines B, false) := by
  cases B with
  | nil => rfl
  | cons c cs =>
    show scanGoB [] (c :: cs) = (scanLinesGo [] (c :: cs), false)
    exact scanGoB_eq_unbounded (c :: cs) [] (by simpa using h)

/-- A nonempty newline-free remainder long enough to fill the buffer makes
the scan stop with `ErrTooLong` and no further tokens. -/
theorem scanGoB_tooLong : ∀ (cs acc : List Char), '\n' ∉ cs → cs ≠ [] →
    maxScanTokenSize ≤ acc.length + cs.length → scanGoB acc cs = ([], true) := by
  intro cs
  induction cs with
  | nil => intro acc _ hne _; exact absurd rfl hne
  | cons c cs2 ih =>
    intro acc hnl _ hlen
    have hc : ¬ (c = '\n') := fun h => hnl (h ▸ List.mem_cons_self c cs2)
    rw [scanGoB, if_neg hc]
    by_cases hb : maxScanTokenSize ≤ acc.length + 1
    · rw [if_pos hb]
    · rw [if_neg hb]
      have hcs2 : cs2 ≠ [] := by
        intro h
        subst h
        rw [List.length_cons, List.length_nil] at hlen
        omega
      refine ih (c :: acc) (fun hm => hnl (List.mem_cons_of_mem _ hm)) hcs2 ?_
      rw [List.length_cons]
      rw [List.length_cons] at hlen
      omega

/-! ## Claim C1 -/

/-- Claim C1 (amended): for every byte string `B` that contains no carriage
return, whose lines each stay below `bufio`'s 64 KiB token limit, in which
every line whose first non-blank character is `[` also contains a closing
`]`, and in which no line's first non-blank character is the delimiter `=`,
serializing the line vector produced by parsing `B` reproduces `B` exactly,
except that a trailing newline may be added after the final line. -/
theorem claim_C1_roundtrip (B : List Char) (hcr : '\r' ∉ B)
    (hlen : runsBelow 0 B = true)
    (hgood : ∀ t ∈ (scanLinesB B).1, lineGood t = true) :
    serializeLines true '=' (iniParse B) = B ∨
      serializeLines true '=' (iniParse B) = B ++ ['\n'] := by
  have hsb : (scanLinesB B).1 = scanLines B := by rw [scanLinesB_eq B hlen]
  unfold iniParse
  rw [hsb, serialize_parseLinesGo true (scanLines B) [] (hsb ▸ hgood)]
  exact scanLines_join B hcr

/-- Witness for C1: the round-trip theorem applied to a concrete file with a
section, a key line and a comment. -/
theorem claim_C1_roundtrip_witness :
    ('\r' ∉ "[a]\nk = v\n# note".toList) ∧
      runsBelow 0 "[a]\nk = v\n# note".toList = true ∧
      (∀ t ∈ (scanLinesB "[a]\nk = v\n# note".toList).1, lineGood t = true) ∧
      (serializeLines true '=' (iniParse "[a]\nk = v\n# note".toList) =
          "[a]\nk = v\n# note".toList ∨
        serializeLines true '=' (iniParse "[a]\nk = v\n# note".toList) =
          "[a]\nk = v\n# note".toList ++ ['\n']) :=
  ⟨by decide, by decide, by decide,
    claim_C1_roundtrip _ (by decide) (by decide) (by decide)⟩

/-- Counterexample to C1 as stated: on the ill-formed section header `[x`
(no closing bracket) the serializer emits `[x]`, so the round-trip changes a
byte rather than merely appending a final newline. -/
theorem claim_C1_counterexample :
    serializeLines true '=' (iniParse "[x".toList) = "[x]\n".toList ∧
      serializeLines true '=' (iniParse "[x".toList) ≠ "[x".toList ∧
      serializeLines true '=' (iniParse "[x".toList) ≠ "[x".toList ++ ['\n'] := by
  decide

/-! ## Claim C5 -/

theorem parseLinesGo_length (commentChars : List Char) (delim : Char) :
    ∀ (toks : List (List Char)) (cur : List Char),
      (parseLinesGo commentChars delim toks cur).length = toks.length := by
  intro toks
  induction toks with
  | nil => intro cur; simp [parseLinesGo]
  | cons t ts ih => intro cur; simp [parseLinesGo, ih]

/-- Claim C5 (amended): for every input byte sequence whose lines each stay
below `bufio`'s 64 KiB token limit, `Parse` returns a line vector (one entry
per scanned line) and no error, regardless of ill-formed content such as a
section header missing its closing `]`, duplicate keys, or bare keys; an
input containing a longer line makes `Parse` return `bufio.ErrTooLong`. -/
theorem claim_C5_parser_total (B : List Char) (hlen : runsBelow 0 B = true) :
    ∃ ls : List INILine, iniParseE B = Except.ok ls ∧
      ls.length = (scanLinesB B).1.length := by
  have h2 : (scanLinesB B).2 = false := by rw [scanLinesB_eq B hlen]
  refine ⟨iniParse B, ?_, parseLinesGo_length defaultCommentChars '=' (scanLinesB B).1 []⟩
  simp [iniParseE, h2]

/-- Witness for C5: the amended totality applied to an ill-formed input
with an unclosed section header, a key line and a bare key. -/
theorem claim_C5_parser_total_witness :
    runsBelow 0 "[a\nx=1\nbare".toList = true ∧
      (∃ ls : List INILine, iniParseE "[a\nx=1\nbare".toList = Except.ok ls ∧
        ls.length = (scanLinesB "[a\nx=1\nbare".toList).1.length) :=
  ⟨by decide, claim_C5_parser_total _ (by decide)⟩

/-- A single newline-free line of exactly `MaxScanTokenSize` bytes. -/
def tooLongInput : List Char := 'a' :: List.replicate 65535 'a'

/-- Counterexample to C5 as stated: on a 64 KiB single-line input the
scanner's buffer overflows before any token is produced, so `Parse` returns
`bufio.ErrTooLong` rather than a line vector with no error. -/
theorem claim_C5_counterexample :
    iniParseE tooLongInput = Except.error "bufio.Scanner: token too long".toList := by
  have hmem : '\n' ∉ tooLongInput := by
    intro h
    rcases List.mem_cons.mp h with h | h
    · exact absurd h (by decide)
    · exact absurd (List.eq_of_mem_replicate h) (by decide)
  have hne : tooLongInput ≠ [] := by
    rw [show tooLongInput = 'a' :: List.replicate 65535 'a' from rfl]
    exact List.cons_ne_nil _ _
  have hlen2 : maxScanTokenSize ≤ ([] : List Char).length + tooLongInput.length := by
    have h1 : tooLongInput.length = 65536 := by
      rw [show tooLongInput = 'a' :: List.replicate 65535 'a' from rfl,
        List.length_cons, List.length_replicate]
    rw [h1]
    simp [maxScanTokenSize]
  have hB : scanLinesB tooLongInput = ([], true) := by
    show scanGoB [] tooLongInput = ([], true)
    exact scanGoB_tooLong tooLongInput [] hmem hne hlen2
  simp [iniParseE, hB]

/-! ## Claim C6 -/

/-- The running section after a prefix of lines, starting from `cur`. -/
def sectionAfter (cur : List Char) : List INILine → List Char
  | [] => cur
  | l :: ls => sectionAfter (if l.IsSection then l.Section else cur) ls

/-- No line of the list matches `UpdateValue`'s search for `(sec, key)` when
scanned with running section started at `cur`. -/
def noUvMatch (sec key : List Char) : List INILine → List Char → Bool
  | [], _ => true
  | l :: ls, cur =>
    if l.IsSection then noUvMatch sec key ls l.Section
    else if cur = sec ∧ l.Key = key then false
    else noUvMatch sec key ls cur

/-- Claim C6 (amended): `UpdateValue(section, key, new)` sets the `Value` of
the first line — comment lines included, section-header lines excluded —
whose enclosing section equals `section` and whose `Key` equals `key`,
leaving every other line unchanged; if no line matches, the vector is
unchanged.  (Comment lines can be the modified line when the text after
their comment prefix equals `key`.) -/
theorem claim_C6_updateValue (sec key v : List Char) :
    (∀ (lines : List INILine) (cur : List Char),
        noUvMatch sec key lines cur = true →
        updateValueGo sec key v lines cur = lines) ∧
      (∀ (pre : List INILine) (l : INILine) (post : List INILine) (cur : List Char),
        noUvMatch sec key pre cur = true →
        l.IsSection = false →
        sectionAfter cur pre = sec →
        l.Key = key →
        updateValueGo sec key v (pre ++ l :: post) cur =
          pre ++ { l with Value := v } :: post) := by
  constructor
  · intro lines
    induction lines with
    | nil => intro cur _; rfl
    | cons l ls ih =>
      intro cur hnm
      by_cases hs : l.IsSection = true
      · rw [noUvMatch] at hnm
        rw [if_pos hs] at hnm
        rw [updateValueGo, if_pos hs, ih l.Section hnm]
      · rw [noUvMatch] at hnm
        rw [if_neg hs] at hnm
        by_cases hm : cur = sec ∧ l.Key = key
        · rw [if_pos hm] at hnm; exact absurd hnm (by simp)
        · rw [if_neg hm] at hnm
          rw [updateValueGo, if_neg hs, if_neg hm, ih cur hnm]
  · intro pre
    induction pre with
    | nil =>
      intro l post cur _ hsec hcur hkey
      simp only [List.nil_append]
      rw [updateValueGo, if_neg (by simp [hsec]), if_pos ⟨by simpa [sectionAfter] using hcur, hkey⟩]
    | cons p ps ih =>
      intro l post cur hnm hsec hcur hkey
      by_cases hps : p.IsSection = true
      · rw [noUvMatch, if_pos hps] at hnm
        rw [sectionAfter, if_pos hps] at hcur
        simp only [List.cons_append]
        rw [updateValueGo, if_pos hps, ih l post p.Section hnm hsec hcur hkey]
      · rw [noUvMatch, if_neg hps] at hnm
        rw [sectionAfter, if_neg hps] at hcur
        by_cases hm : cur = sec ∧ p.Key = key
        · rw [if_pos hm] at hnm; exact absurd hnm (by simp)
        · rw [if_neg hm] at hnm
          simp only [List.cons_append]
          rw [updateValueGo, if_neg hps, if_neg hm, ih l post cur hnm hsec hcur hkey]

/-- A concrete section-header line used by the C6 witness. -/
def uvSectionLine : INILine := { Section := "s".toList, IsSection := true }

/-- A concrete key line `k=1` in section `s` used by the C6 witness. -/
def uvKeyLine : INILine := { Section := "s".toList, Key := "k".toList, Value := "1".toList }

/-- A concrete comment line whose text after the comment prefix is `k`. -/
def uvCommentLine : INILine :=
  { CommentMark := "# ".toList, Key := "k".toList, Original := "# k".toList }

/-- Witness for C6: the characterization applied to a two-line vector where
the second line is the first match. -/
theorem claim_C6_updateValue_witness :
    updateValueGo "s".toList "k".toList "9".toList [uvSectionLine, uvKeyLine] [] =
      [uvSectionLine, { uvKeyLine with Value := "9".toList }] := by
  have h := (claim_C6_updateValue "s".toList "k".toList "9".toList).2
    [uvSectionLine] uvKeyLine [] [] (by decide) (by decide) (by decide) (by decide)
  simpa using h

/-- Counterexample to C6 as stated: `UpdateValue` does modify a comment line
whose `Key` (the text after the comment prefix) equals the searched key. -/
theorem claim_C6_counterexample :
    UpdateValue [uvCommentLine] [] "k".toList "9".toList =
      [{ uvCommentLine with Value := "9".toList }] ∧
      ({ uvCommentLine with Value := "9".toList } : INILine) ≠ uvCommentLine := by
  decide

/-! ## INI edit wrapper (`iniparser/ini_wrapper.go`) -/

/-- One step of `INIWrapper.Unmarshal`'s loop: skip key-less and commented
lines; otherwise ensure the section map exists and store the key's value. -/
def unmarshalStep (result : GoMapL) (line : INILine) : GoMapL :=
  if line.Key = [] then result
  else if line.CommentMark ≠ [] then result
  else
    let sm :=
      match lookupA result line.Section with
      | some (.map m) => m
      | _ => []
    insertA result line.Section (.map (insertA sm line.Key (.str line.Value)))

/-- The map built by `INIWrapper.Unmarshal` from a parsed line vector. -/
def unmarshalLines (lines : List INILine) : GoMapL :=
  lines.foldl unmarshalStep []

/-- `INIWrapper.Unmarshal`: the nested map plus the cached line vector the
wrapper keeps for a later `Marshal`. -/
def iniUnmarshal (data : List Char) : GoMapL × List INILine :=
  (unmarshalLines (iniParse data), iniParse data)

/-- `makeKey`: the `section::key` tracking key. -/
def makeKey (sect key : List Char) : List Char := sect ++ ':' :: ':' :: key

/-- `findValue`: look the key up inside the data's section map. -/
def findValue (data : GoMapL) (sect key : List Char) : Option GoVal :=
  match lookupA data sect with
  | some (.map sm) => lookupA sm key
  | _ => none

/-- Whether a map value carries the `deleted: true` sentinel. -/
def isDeletedMarker (vm : GoMapL) : Bool :=
  match lookupA vm ('d' :: 'e' :: 'l' :: 'e' :: 't' :: 'e' :: 'd' :: []) with
  | some (.bool true) => true
  | _ => false

/-- `updateLineValue`: a `deleted:true` map yields the zero line; a string
updates the value and uncomments the line; anything else leaves it as is. -/
def updateLineValue (line : INILine) (v : GoVal) : INILine :=
  match v with
  | .map vm => if isDeletedMarker vm then {} else line
  | .str s => { line with Value := s, CommentMark := [] }
  | _ => line

/-- `createLine`: build a fresh line for a new key; the `deleted` sentinel
yields the zero line (filtered by callers that check `Key == ""`). -/
def createLine (sect key : List Char) (v : GoVal) : INILine :=
  match v with
  | .map vm => if isDeletedMarker vm then {} else { Section := sect, Key := key }
  | .str s => { Section := sect, Key := key, Value := s }
  | _ => { Section := sect, Key := key }

/-- First pass of `INIWrapper.updateLines`: walk the cached lines tracking
the current section, keep structural lines, drop keys absent from the data,
rewrite present keys, and record processed `section::key` markers. -/
def updateLinesPass (data : GoMapL) :
    List INILine → List Char → List (List Char) → List INILine × List (List Char)
  | [], _, processed => ([], processed)
  | l :: ls, cur, processed =>
    if l.IsSection then
      let r := updateLinesPass data ls l.Section processed
      (l :: r.1, r.2)
    else if l.Key = [] then
      let r := updateLinesPass data ls cur processed
      (l :: r.1, r.2)
    else if l.CommentMark ≠ [] then
      let r := updateLinesPass data ls cur processed
      (l :: r.1, r.2)
    else
      let processed2 := makeKey cur l.Key :: processed
      match findValue data cur l.Key with
      | none => updateLinesPass data ls cur processed2
      | some v =>
        let r := updateLinesPass data ls cur processed2
        (updateLineValue l v :: r.1, r.2)

/-- `collectNewKeys`: keys of the data not matched by any cached line,
grouped per section (sections with no new key contribute no entry). -/
def collectNewKeys (data : GoMapL) (processed : List (List Char)) :
    List (List Char × List (List Char × GoVal)) :=
  match data with
  | [] => []
  | (sec, v) :: rest =>
    match v with
    | .map sm =>
      let ks := sm.filter (fun kv => ¬ processed.contains (makeKey sec kv.1))
      if ks.isEmpty then collectNewKeys rest processed
      else (sec, ks) :: collectNewKeys rest processed
    | _ => collectNewKeys rest processed

/-- `isLastKeyInSection` scanning forward from the lines after the current
one: true when a section boundary or the end of file comes before the next
active key. -/
def isLastKeyInSection : List INILine → Bool
  | [] => true
  | l :: ls =>
    if l.IsSection then true
    else if l.Key ≠ [] ∧ l.CommentMark = [] then false
    else isLastKeyInSection ls

/-- Association lookup in the collected new-keys listing. -/
def lookupNK (nk : List (List Char × List (List Char × GoVal))) (k : List Char) :
    Option (List (List Char × GoVal)) :=
  match nk with
  | [] => none
  | (k2, v) :: rest => if k2 = k then some v else lookupNK rest k

/-- `insertNewKeys`: append each section's new keys after the last active
key of the section; sections absent from the file get a fresh header at the
end. -/
def insertNewKeysGo (nk : List (List Char × List (List Char × GoVal))) :
    List INILine → List Char → List INILine
  | [], _ =>
    nk.flatMap (fun p =>
      (if p.1 = [] then [] else [{ Section := p.1, IsSection := true }]) ++
        p.2.map (fun kv => createLine p.1 kv.1 kv.2))
  | l :: ls, cur =>
    let cur2 := if l.IsSection then l.Section else cur
    match lookupNK nk cur2 with
    | some ks =>
      if isLastKeyInSection ls then
        l :: (ks.map (fun kv => createLine cur2 kv.1 kv.2) ++
          insertNewKeysGo (nk.filter (fun p => p.1 ≠ cur2)) ls cur2)
      else l :: insertNewKeysGo nk ls cur2
    | none => l :: insertNewKeysGo nk ls cur2

/-- `INIWrapper.updateLines`: first pass over the cached lines, then insert
the keys not present in the original. -/
def updateLines (cached : List INILine) (data : GoMapL) : List INILine :=
  let r := updateLinesPass data cached [] []
  let nk := collectNewKeys data r.2
  if nk.isEmpty then r.1 else insertNewKeysGo nk r.1 []

/-- `INIWrapper.buildLines`: build lines from scratch, root section first,
skipping non-map sections, empty section maps and deleted keys. -/
def buildLines (data : GoMapL) : List INILine :=
  let rootLines :=
    match lookupA data [] with
    | some (.map rm) => (rm.map (fun kv => createLine [] kv.1 kv.2)).filter (·.Key ≠ [])
    | _ => []
  rootLines ++ data.flatMap (fun p =>
    if p.1 = [] then []
    else
      match p.2 with
      | .map sm =>
        if sm.isEmpty then []
        else { Section := p.1, IsSection := true } ::
          (sm.map (fun kv => createLine p.1 kv.1 kv.2)).filter (·.Key ≠ [])
      | _ => [])

/-- `INIWrapper.Marshal` given the wrapper's cached lines: update them in
place when present, otherwise build from scratch; then serialize. -/
def iniMarshal (cached : List INILine) (data : GoMapL) : List Char :=
  serializeLines true '=' (if cached ≠ [] then updateLines cached data else buildLines data)

/-! ## Claim C2 -/

/-- The C2 scenario's input file. -/
def c2Input : List Char := "[opts]\nx=1\ny=2\n".toList

/-- The C2 scenario's desired content: delete `x`, keep `y`. -/
def c2Desired : GoMapL :=
  [("opts".toList, .map [("x".toList, .map [("deleted".toList, .bool true)]),
    ("y".toList, .str "2".toList)])]

/-- Claim C2 (code bug): after `Unmarshal` of `[opts]\nx=1\ny=2\n`,
`Marshal` with `x` marked `deleted:true` emits `[opts]\n\ny=2\n` — the
deleted key's line is replaced by an empty line instead of being removed,
contradicting the documented output `[opts]\ny=2\n`.  The zero `INILine`
produced by `updateLineValue` is appended by `updateLines` without the
`Key == ""` filter that `buildLines` applies. -/
theorem claim_C2_delete_sentinel :
    iniMarshal (iniUnmarshal c2Input).2 c2Desired = "[opts]\n\ny=2\n".toList ∧
      iniMarshal (iniUnmarshal c2Input).2 c2Desired ≠ "[opts]\ny=2\n".toList := by
  decide

/-! ## Claim C10 -/

theorem lookupA_insertA (m : GoMapL) (k k2 : List Char) (v : GoVal) :
    lookupA (insertA m k v) k2 = if k = k2 then some v else lookupA m k2 := by
  induction m with
  | nil =>
    by_cases h : k = k2
    · simp [insertA, lookupA, h]
    · simp [insertA, lookupA, h, Ne.symm h]
  | cons p rest ih =>
    obtain ⟨pk, pv⟩ := p
    by_cases hpk : pk = k
    · subst hpk
      by_cases h : pk = k2
      · simp [insertA, lookupA, h]
      · simp [insertA, lookupA, h]
    · by_cases h2 : pk = k2
      · subst h2
        have : ¬ k = pk := fun hh => hpk hh.symm
        simp [insertA, lookupA, hpk, this]
      · simp [insertA, lookupA, hpk, h2, ih]

/-- The shape invariant of the map `Unmarshal` builds: every section entry
is a map witnessed by an active key line of that section, and every inner
entry is the string value of an active key line with that section and key. -/
def UnmarshalInv (L : List INILine) (m : GoMapL) : Prop :=
  ∀ s v, lookupA m s = some v →
    ∃ sm, v = GoVal.map sm ∧
      (∃ l ∈ L, (l.Key ≠ [] ∧ l.CommentMark = []) ∧ l.Section = s) ∧
      (∀ k val, lookupA sm k = some val →
        ∃ l ∈ L, (l.Key ≠ [] ∧ l.CommentMark = []) ∧ l.Section = s ∧
          l.Key = k ∧ val = GoVal.str l.Value)

theorem unmarshalStep_inv {L : List INILine} {m : GoMapL} {l0 : INILine}
    (hm : UnmarshalInv L m) (hl0 : l0 ∈ L) : UnmarshalInv L (unmarshalStep m l0) := by
  unfold unmarshalStep
  by_cases hk : l0.Key = []
  · simpa [hk] using hm
  · by_cases hc : l0.CommentMark ≠ []
    · simpa [hk, hc] using hm
    · rw [if_neg hk, if_neg (by simpa using hc)]
      intro s v hlook
      rw [lookupA_insertA] at hlook
      by_cases hs : l0.Section = s
      · rw [if_pos hs, Option.some_inj] at hlook
        subst hlook
        refine ⟨_, rfl, ⟨l0, hl0, ⟨hk, by simpa using hc⟩, hs⟩, ?_⟩
        intro k val hik
        rw [lookupA_insertA] at hik
        by_cases hkk : l0.Key = k
        · rw [if_pos hkk, Option.some_inj] at hik
          exact ⟨l0, hl0, ⟨hk, by simpa using hc⟩, hs, hkk, hik.symm⟩
        · rw [if_neg hkk] at hik
          cases hold : lookupA m l0.Section with
          | none => rw [hold] at hik; simp [lookupA] at hik
          | some w =>
            cases w with
            | map m0 =>
              rw [hold] at hik
              obtain ⟨sm2, heq, _, hinner⟩ := hm l0.Section (GoVal.map m0) hold
              have hsm : m0 = sm2 := by
                injection heq
              exact hs ▸ hinner k val (hsm ▸ hik)
            | str a => rw [hold] at hik; simp [lookupA] at hik
            | strs a => rw [hold] at hik; simp [lookupA] at hik
            | int a => rw [hold] at hik; simp [lookupA] at hik
            | bool a => rw [hold] at hik; simp [lookupA] at hik
      · rw [if_neg hs] at hlook
        exact hm s v hlook

theorem unmarshalFold_inv (L : List INILine) :
    ∀ (ls : List INILine) (m : GoMapL), (∀ l ∈ ls, l ∈ L) → UnmarshalInv L m →
      UnmarshalInv L (ls.foldl unmarshalStep m) := by
  intro ls
  induction ls with
  | nil => intro m _ hm; simpa using hm
  | cons l0 rest ih =>
    intro m hsub hm
    simp only [List.foldl_cons]
    exact ih _ (fun l hl => hsub l (by simp [hl]))
      (unmarshalStep_inv hm (hsub l0 (by simp)))

/-- Claim C10: the map returned by `INIWrapper.Unmarshal` has an entry only
for sections with at least one active (non-comment) key line, and every
leaf value is the string `Value` of such a line; commented and empty lines
contribute nothing. -/
theorem claim_C10_unmarshal_shape (B : List Char) :
    ∀ s v, lookupA (iniUnmarshal B).1 s = some v →
      ∃ sm, v = GoVal.map sm ∧
        (∃ l ∈ iniParse B, (l.Key ≠ [] ∧ l.CommentMark = []) ∧ l.Section = s) ∧
        (∀ k val, lookupA sm k = some val →
          ∃ l ∈ iniParse B, (l.Key ≠ [] ∧ l.CommentMark = []) ∧ l.Section = s ∧
            l.Key = k ∧ val = GoVal.str l.Value) := by
  have base : UnmarshalInv (iniParse B) [] := by
    intro s v hlook
    simp [lookupA] at hlook
  exact unmarshalFold_inv (iniParse B) (iniParse B) [] (fun l hl => hl) base

/-- The C10 witness input: a section with an active key, then a section
containing only a commented line. -/
def c10Input : List Char := "[a]\nx=1\n[b]\n# c=2\n".toList

/-- Witness for C10: the shape theorem applied to section `a` of the
concrete input, whose entry is the map `x` to `1`. -/
theorem claim_C10_unmarshal_shape_witness :
    lookupA (iniUnmarshal c10Input).1 "a".toList =
      some (GoVal.map [("x".toList, GoVal.str "1".toList)]) ∧
      (∃ sm, GoVal.map [("x".toList, GoVal.str "1".toList)] = GoVal.map sm ∧
        (∃ l ∈ iniParse c10Input, (l.Key ≠ [] ∧ l.CommentMark = []) ∧
          l.Section = "a".toList) ∧
        (∀ k val, lookupA sm k = some val →
          ∃ l ∈ iniParse c10Input, (l.Key ≠ [] ∧ l.CommentMark = []) ∧
            l.Section = "a".toList ∧ l.Key = k ∧ val = GoVal.str l.Value)) :=
  ⟨rfl, claim_C10_unmarshal_shape c10Input "a".toList _ rfl⟩

/-! ## Diff engine (`state` package) -/

/-- `ConfigDiff`: the difference between desired and current state.
`Modified` maps a key to its old and new value (`DiffValue`). -/
structure ConfigDiff where
  Target : List Char := []
  Changes : GoMapL := []
  Added : GoMapL := []
  Removed : List (List Char) := []
  Modified : List (List Char × GoVal × GoVal) := []
deriving Repr

/-- Go map assignment on the `Modified` association list. -/
def insertMD (m : List (List Char × GoVal × GoVal)) (k : List Char) (v : GoVal × GoVal) :
    List (List Char × GoVal × GoVal) :=
  match m with
  | [] => [(k, v)]
  | (k2, v2) :: rest => if k2 = k then (k2, v) :: rest else (k2, v2) :: insertMD rest k v

/-- The first loop of `ComputeDiff`: classify each desired key as modified
(value differs by `reflect.DeepEqual`) or added. -/
def computeDiffDesired (current : GoMapL) (d : ConfigDiff) : GoMapL → ConfigDiff
  | [] => d
  | (k, newV) :: rest =>
    match lookupA current k with
    | some oldV =>
      if GoVal.deepEq oldV newV then computeDiffDesired current d rest
      else
        computeDiffDesired current
          { d with Changes := insertA d.Changes k newV,
                   Modified := insertMD d.Modified k (oldV, newV) } rest
    | none =>
      computeDiffDesired current
        { d with Changes := insertA d.Changes k newV, Added := insertA d.Added k newV } rest

/-- The second loop of `ComputeDiff`: keys of current absent from desired
are removed, with the old value recorded in `Changes`. -/
def computeDiffRemoved (desired : GoMapL) (d : ConfigDiff) : GoMapL → ConfigDiff
  | [] => d
  | (k, oldV) :: rest =>
    match lookupA desired k with
    | some _ => computeDiffRemoved desired d rest
    | none =>
      computeDiffRemoved desired
        { d with Removed := d.Removed ++ [k], Changes := insertA d.Changes k oldV } rest

/-- `ComputeDiff`: compare current and desired flat states. -/
def ComputeDiff (current desired : GoMapL) : ConfigDiff :=
  computeDiffRemoved desired (computeDiffDesired current {} desired) current

/-- `ConfigDiff.IsEmpty`: no changes and no removals. -/
def ConfigDiff.IsEmpty (d : ConfigDiff) : Bool := d.Changes.isEmpty && d.Removed.isEmpty

/-- Whether a nested map carries one of the sentinel keys `deleted`,
`commented` or `value` and is therefore treated as a leaf by flattening. -/
def hasSentinel (nm : GoMapL) : Bool :=
  (lookupA nm "deleted".toList).isSome || (lookupA nm "commented".toList).isSome ||
    (lookupA nm "value".toList).isSome

/-- Dotted path construction used by `FlattenForDiff`. -/
def fullKeyOf (pre k : List Char) : List Char := if pre = [] then k else pre ++ '.' :: k

mutual
/-- `FlattenForDiff`'s loop over a map's entries, accumulating into the
result map (Go builds nested results separately and copies them in; the
accumulated final map is the same). -/
def flattenEntries (result : GoMapL) (pre : List Char) : GoMapL → GoMapL
  | [] => result
  | (k, v) :: rest => flattenEntries (flattenOne result pre k v) pre rest

/-- Flatten a single entry: sentinel maps and non-maps are leaves; other
maps are flattened recursively under the dotted key. -/
def flattenOne (result : GoMapL) (pre k : List Char) : GoVal → GoMapL
  | .map nm =>
    if hasSentinel nm then insertA result (fullKeyOf pre k) (.map nm)
    else flattenEntries result (fullKeyOf pre k) nm
  | .str a => insertA result (fullKeyOf pre k) (.str a)
  | .strs a => insertA result (fullKeyOf pre k) (.strs a)
  | .int a => insertA result (fullKeyOf pre k) (.int a)
  | .bool a => insertA result (fullKeyOf pre k) (.bool a)
end

/-- `FlattenForDiff`: flatten nested maps to dotted paths, keeping sentinel
maps as leaves. -/
def FlattenForDiff (data : GoMapL) (pre : List Char) : GoMapL :=
  flattenEntries [] pre data

/-- A flattened value admissible in the desired state: not a map carrying
`deleted: true`. -/
def flatValOk (v : GoVal) : Bool :=
  match v with
  | .map vm => !(isDeletedMarker vm)
  | _ => true

/-- The deletion loop of `ComputeFlatDiff`: drop `deleted:true` leaves from
the flattened desired state. -/
def removeDeleted (flat : GoMapL) : GoMapL :=
  flat.filter (fun kv => flatValOk kv.2)

/-- `ComputeFlatDiff`: flatten both sides, drop deleted keys from desired,
and compare. -/
def ComputeFlatDiff (current desired : GoMapL) : ConfigDiff :=
  ComputeDiff (FlattenForDiff current []) (removeDeleted (FlattenForDiff desired []))

/-! ## State manager (`state/manager.go`) -/

/-- `Manager.extractRootSection`: the root `""` section of current when it
is a map. -/
def extractRootSection (current : GoMapL) : Option GoMapL :=
  match lookupA current [] with
  | some (.map m) => some m
  | _ => none

/-- `Manager.findKeyInCurrent`: direct lookup, then the root section. -/
def findKeyInCurrent (key : List Char) (current : GoMapL) (root : Option GoMapL) :
    Option GoVal :=
  match lookupA current key with
  | some v => some v
  | none =>
    match root with
    | some r => lookupA r key
    | none => none

mutual
/-- `Manager.filterManagedKeys`: keep only current values at keys that the
desired state mentions, recursively for nested maps. -/
def filterManagedKeys (current : GoMapL) : GoMapL → GoMapL
  | [] => []
  | (k, dv) :: rest =>
    match findKeyInCurrent k current (extractRootSection current) with
    | some cv => (k, filterKeyValue cv dv) :: filterManagedKeys current rest
    | none => filterManagedKeys current rest

/-- `Manager.filterKeyValue`: recurse when both sides are maps, otherwise
keep the current value as is. -/
def filterKeyValue (cv : GoVal) : GoVal → GoVal
  | .map dm =>
    match cv with
    | .map cm => .map (filterManagedKeys cm dm)
    | _ => cv
  | _ => cv
end

/-- `Manager.ComputeDiffWithCurrent`: filter current to managed keys, then
compute the flattened diff and tag it with the target name. -/
def ComputeDiffWithCurrent (target : List Char) (desired currentSystemState : GoMapL) :
    ConfigDiff :=
  { ComputeFlatDiff (filterManagedKeys currentSystemState desired) desired with
      Target := target }

/-! ## Reconciliation engine (`reconciler`) -/

/-- The desired-state projection `getTargetContent`. -/
def Target.desiredContent (t : Target) : GoMapL :=
  match t.config with
  | .file c => c.content
  | .dconf c => c.settings
  | .systemd c => c.properties
  | .sed c => [("commands".toList, .strs c.commands), ("path".toList, .str c.path)]

/-- Observable actions of one reconciliation pass. -/
inductive REvent where
  | applyCall : List Char → REvent
  | printDiff : List Char → REvent
  | noChanges : List Char → REvent
deriving Repr, DecidableEq

/-- The engine's executor-facing environment: registry lookup, current
system state, and the outcome `Apply` would have. -/
structure EngineEnv where
  hasExecutor : List Char → Bool
  currentState : List Char → Except (List Char) GoMapL
  applyResult : List Char → Except (List Char) Unit

/-- `ReconciliationEngine.reconcileTarget`: look up the executor, read the
current state, diff, and apply or print; returns the emitted events and an
error if one occurred. -/
def reconcileTarget (env : EngineEnv) (dryRun : Bool) (t : Target) :
    List REvent × Option (List Char) :=
  if env.hasExecutor t.ttype = false then ([], some "no executor found".toList)
  else
    match env.currentState t.name with
    | .error e => ([], some e)
    | .ok cur =>
      let diff := ComputeDiffWithCurrent t.name t.desiredContent cur
      if diff.IsEmpty then ([.noChanges t.name], none)
      else if dryRun then ([.printDiff t.name], none)
      else
        match env.applyResult t.name with
        | .ok _ => ([.applyCall t.name], none)
        | .error e => ([.applyCall t.name], some e)

/-- `ReconciliationEngine.Reconcile`: per-target loop, halting on the first
error. -/
def reconcile (env : EngineEnv) (dryRun : Bool) : List Target → List REvent × Option (List Char)
  | [] => ([], none)
  | t :: ts =>
    let r := reconcileTarget env dryRun t
    match r.2 with
    | some e => (r.1, some e)
    | none =>
      let rest := reconcile env dryRun ts
      (r.1 ++ rest.1, rest.2)

/-! ## Claim C3 -/

/-- Claim C3: `ComputeDiffWithCurrent` restricts current to managed keys —
every key of the filtered current state appears in the desired state — and
on `current = (a:1, b:2)`, `desired = (a:9)` the diff has exactly
`Modified = (a: 1 to 9)`, empty `Removed`, and no entry for `b`. -/
theorem claim_C3_managed_filter :
    (∀ (cur des : GoMapL) (k : List Char),
        (lookupA (filterManagedKeys cur des) k).isSome = true →
        (lookupA des k).isSome = true) ∧
      ComputeDiffWithCurrent "t".toList [("a".toList, GoVal.int 9)]
          [("a".toList, GoVal.int 1), ("b".toList, GoVal.int 2)] =
        { Target := "t".toList,
          Changes := [("a".toList, GoVal.int 9)],
          Added := [],
          Removed := [],
          Modified := [("a".toList, GoVal.int 1, GoVal.int 9)] } := by
  constructor
  · intro cur des
    induction des with
    | nil => intro k h; simp [filterManagedKeys, lookupA] at h
    | cons p rest ih =>
      obtain ⟨k0, dv⟩ := p
      intro k h
      rw [filterManagedKeys] at h
      by_cases hk : k0 = k
      · simp [lookupA, hk]
      · cases hf : findKeyInCurrent k0 cur (extractRootSection cur) with
        | some cv =>
          rw [hf] at h
          rw [lookupA, if_neg hk] at h
          rw [lookupA, if_neg hk]
          exact ih k h
        | none =>
          rw [hf] at h
          rw [lookupA, if_neg hk]
          exact ih k h
  · rfl

/-- Witness for C3: the filter-restriction statement applied to the claim's
concrete current and desired states at key `a`. -/
theorem claim_C3_managed_filter_witness :
    (lookupA (filterManagedKeys [("a".toList, GoVal.int 1), ("b".toList, GoVal.int 2)]
        [("a".toList, GoVal.int 9)]) "a".toList).isSome = true ∧
      (lookupA [("a".toList, GoVal.int 9)] "a".toList).isSome = true :=
  ⟨rfl, claim_C3_managed_filter.1 [("a".toList, GoVal.int 1), ("b".toList, GoVal.int 2)]
    [("a".toList, GoVal.int 9)] "a".toList rfl⟩

/-! ## Claim C4 -/

mutual
/-- A value whose flattening never produces a `deleted:true` leaf: sentinel
leaves must not be deletion markers, other maps are checked recursively. -/
def valSafe : GoVal → Bool
  | .map m => if hasSentinel m then !(isDeletedMarker m) else entriesSafe m
  | _ => true

/-- `valSafe` over all values of a map. -/
def entriesSafe : GoMapL → Bool
  | [] => true
  | (_, v) :: rest => valSafe v && entriesSafe rest
end

theorem mem_insertA {m : GoMapL} {k : List Char} {v : GoVal} :
    ∀ {kv : List Char × GoVal}, kv ∈ insertA m k v → kv = (k, v) ∨ kv ∈ m := by
  induction m with
  | nil => intro kv h; simp [insertA] at h; simp [h]
  | cons p rest ih =>
    intro kv h
    obtain ⟨k2, v2⟩ := p
    rw [insertA] at h
    by_cases hk : k2 = k
    · rw [if_pos hk] at h
      rcases List.mem_cons.mp h with rfl | h2
      · left; rw [hk]
      · right; exact List.mem_cons_of_mem _ h2
    · rw [if_neg hk] at h
      rcases List.mem_cons.mp h with rfl | h2
      · right; simp
      · rcases ih h2 with h3 | h3
        · left; exact h3
        · right; exact List.mem_cons_of_mem _ h3

mutual
theorem flattenEntries_flatOk : ∀ (M : GoMapL) (res : GoMapL) (pre : List Char),
    entriesSafe M = true → (∀ kv ∈ res, flatValOk kv.2 = true) →
    ∀ kv ∈ flattenEntries res pre M, flatValOk kv.2 = true
  | [], res, pre, _, hres, kv, hkv => hres kv hkv
  | (k, v) :: rest, res, pre, hM, hres, kv, hkv => by
    rw [entriesSafe, Bool.and_eq_true] at hM
    rw [flattenEntries] at hkv
    exact flattenEntries_flatOk rest (flattenOne res pre k v) pre hM.2
      (fun kv2 hkv2 => flattenOne_flatOk v res pre k hM.1 hres kv2 hkv2) kv hkv

theorem flattenOne_flatOk : ∀ (v : GoVal) (res : GoMapL) (pre k : List Char),
    valSafe v = true → (∀ kv ∈ res, flatValOk kv.2 = true) →
    ∀ kv ∈ flattenOne res pre k v, flatValOk kv.2 = true
  | .map nm, res, pre, k, hv, hres, kv, hkv => by
    rw [valSafe] at hv
    rw [flattenOne] at hkv
    by_cases hs : hasSentinel nm = true
    · rw [if_pos hs] at hv hkv
      rcases mem_insertA hkv with rfl | h2
      · simpa [flatValOk] using hv
      · exact hres _ h2
    · rw [if_neg hs] at hv hkv
      exact flattenEntries_flatOk nm res (fullKeyOf pre k) hv hres kv hkv
  | .str a, res, pre, k, _, hres, kv, hkv => by
    rw [flattenOne] at hkv
    rcases mem_insertA hkv with rfl | h2
    · simp [flatValOk]
    · exact hres _ h2
  | .strs a, res, pre, k, _, hres, kv, hkv => by
    rw [flattenOne] at hkv
    rcases mem_insertA hkv with rfl | h2
    · simp [flatValOk]
    · exact hres _ h2
  | .int a, res, pre, k, _, hres, kv, hkv => by
    rw [flattenOne] at hkv
    rcases mem_insertA hkv with rfl | h2
    · simp [flatValOk]
    · exact hres _ h2
  | .bool a, res, pre, k, _, hres, kv, hkv => by
    rw [flattenOne] at hkv
    rcases mem_insertA hkv with rfl | h2
    · simp [flatValOk]
    · exact hres _ h2
end

/-- The key list of an association map. -/
def keysOf (m : GoMapL) : List (List Char) := m.map Prod.fst

theorem keysOf_insertA (m : GoMapL) (k : List Char) (v : GoVal) :
    keysOf (insertA m k v) = if k ∈ keysOf m then keysOf m else keysOf m ++ [k] := by
  induction m with
  | nil => simp [insertA, keysOf]
  | cons p rest ih =>
    obtain ⟨k2, v2⟩ := p
    by_cases hk : k2 = k
    · subst hk
      simp [insertA, keysOf]
    · rw [insertA, if_neg hk]
      have hne : ¬ (k = k2) := fun hh => hk hh.symm
      by_cases hmem : k ∈ keysOf rest
      · simp only [keysOf, List.map_cons] at *
        rw [ih, if_pos hmem, if_pos (by simp [hmem])]
      · simp only [keysOf, List.map_cons] at *
        rw [ih, if_neg hmem, if_neg (by simp [hmem, hne])]
        simp

theorem nodup_keysOf_insertA {m : GoMapL} (h : (keysOf m).Nodup) (k : List Char) (v : GoVal) :
    (keysOf (insertA m k v)).Nodup := by
  rw [keysOf_insertA]
  by_cases hmem : k ∈ keysOf m
  · simpa [hmem] using h
  · rw [if_neg hmem]
    simp [List.nodup_append, h, hmem]

mutual
theorem flattenEntries_nodup : ∀ (M : GoMapL) (res : GoMapL) (pre : List Char),
    (keysOf res).Nodup → (keysOf (flattenEntries res pre M)).Nodup
  | [], res, pre, hres => by rw [flattenEntries]; exact hres
  | (k, v) :: rest, res, pre, hres => by
    rw [flattenEntries]
    exact flattenEntries_nodup rest _ pre (flattenOne_nodup v res pre k hres)

theorem flattenOne_nodup : ∀ (v : GoVal) (res : GoMapL) (pre k : List Char),
    (keysOf res).Nodup → (keysOf (flattenOne res pre k v)).Nodup
  | .map nm, res, pre, k, hres => by
    rw [flattenOne]
    by_cases hs : hasSentinel nm = true
    · rw [if_pos hs]; exact nodup_keysOf_insertA hres _ _
    · rw [if_neg hs]; exact flattenEntries_nodup nm res (fullKeyOf pre k) hres
  | .str a, res, pre, k, hres => by rw [flattenOne]; exact nodup_keysOf_insertA hres _ _
  | .strs a, res, pre, k, hres => by rw [flattenOne]; exact nodup_keysOf_insertA hres _ _
  | .int a, res, pre, k, hres => by rw [flattenOne]; exact nodup_keysOf_insertA hres _ _
  | .bool a, res, pre, k, hres => by rw [flattenOne]; exact nodup_keysOf_insertA hres _ _
end

theorem lookupA_of_mem_nodup : ∀ {m : GoMapL} {k : List Char} {v : GoVal},
    (keysOf m).Nodup → (k, v) ∈ m → lookupA m k = some v := by
  intro m
  induction m with
  | nil => intro k v _ h; simp at h
  | cons p rest ih =>
    intro k v hnd h
    obtain ⟨k2, v2⟩ := p
    rw [keysOf, List.map_cons, List.nodup_cons] at hnd
    rcases List.mem_cons.mp h with heq | h2
    · obtain ⟨rfl, rfl⟩ := Prod.mk.injEq .. ▸ heq
      simp [lookupA]
    · by_cases hk : k2 = k
      · subst hk
        exact absurd (by simpa [keysOf] using List.mem_map_of_mem Prod.fst h2) hnd.1
      · rw [lookupA, if_neg hk]
        exact ih hnd.2 h2

theorem lookupA_isSome_of_mem : ∀ {m : GoMapL} {k : List Char} {v : GoVal},
    (k, v) ∈ m → (lookupA m k).isSome = true := by
  intro m
  induction m with
  | nil => intro k v h; simp at h
  | cons p rest ih =>
    intro k v h
    obtain ⟨k2, v2⟩ := p
    rcases List.mem_cons.mp h with heq | h2
    · obtain ⟨rfl, rfl⟩ := Prod.mk.injEq .. ▸ heq
      simp [lookupA]
    · by_cases hk : k2 = k
      · simp [lookupA, hk]
      · rw [lookupA, if_neg hk]
        exact ih h2

theorem computeDiffDesired_self (F : GoMapL) :
    ∀ (ls : GoMapL) (d : ConfigDiff), (∀ kv ∈ ls, lookupA F kv.1 = some kv.2) →
      computeDiffDesired F d ls = d := by
  intro ls
  induction ls with
  | nil => intro d _; rfl
  | cons p rest ih =>
    intro d hls
    obtain ⟨k, newV⟩ := p
    have h0 : lookupA F k = some newV := hls (k, newV) (by simp)
    rw [computeDiffDesired, h0]
    simp only [GoVal.deepEq_refl newV, if_true]
    exact ih d (fun kv hkv => hls kv (List.mem_cons_of_mem _ hkv))

theorem computeDiffRemoved_self (D : GoMapL) :
    ∀ (ls : GoMapL) (d : ConfigDiff), (∀ kv ∈ ls, (lookupA D kv.1).isSome = true) →
      computeDiffRemoved D d ls = d := by
  intro ls
  induction ls with
  | nil => intro d _; rfl
  | cons p rest ih =>
    intro d hls
    obtain ⟨k, oldV⟩ := p
    have h0 : (lookupA D k).isSome = true := hls (k, oldV) (by simp)
    rw [computeDiffRemoved]
    cases hf : lookupA D k with
    | none => rw [hf] at h0; simp at h0
    | some w =>
      exact ih d (fun kv hkv => hls kv (List.mem_cons_of_mem _ hkv))

/-- Claim C4 (amended): for every map `M` none of whose (flatten-reachable)
sentinel leaves is a `deleted:true` marker, `ComputeFlatDiff(M, M)` is
empty.  (A `deleted:true` leaf is removed from the desired side only, so it
shows up as removed even when current and desired are the same map.) -/
theorem claim_C4_flatdiff_empty (M : GoMapL) (hsafe : entriesSafe M = true) :
    (ComputeFlatDiff M M).IsEmpty = true := by
  unfold ComputeFlatDiff
  have hflatOk : ∀ kv ∈ FlattenForDiff M [], flatValOk kv.2 = true :=
    flattenEntries_flatOk M [] [] hsafe (by intro kv h; simp at h)
  have hremove : removeDeleted (FlattenForDiff M []) = FlattenForDiff M [] := by
    unfold removeDeleted
    exact List.filter_eq_self.mpr hflatOk
  rw [hremove]
  have hnodup : (keysOf (FlattenForDiff M [])).Nodup :=
    flattenEntries_nodup M [] [] (by simp [keysOf])
  unfold ComputeDiff
  rw [computeDiffDesired_self _ _ _ (fun kv hkv => by
    have := lookupA_of_mem_nodup hnodup hkv
    simpa using this)]
  rw [computeDiffRemoved_self _ _ _ (fun kv hkv => by
    rw [lookupA_of_mem_nodup hnodup hkv]
    rfl)]
  rfl

/-- Witness for C4: the amended statement applied to a concrete nested map
with a `commented` sentinel leaf. -/
theorem claim_C4_flatdiff_empty_witness :
    entriesSafe [("s".toList, GoVal.map [("a".toList, GoVal.str "1".toList),
        ("c".toList, GoVal.map [("commented".toList, GoVal.str "; ".toList)])])] = true ∧
      (ComputeFlatDiff
          [("s".toList, GoVal.map [("a".toList, GoVal.str "1".toList),
            ("c".toList, GoVal.map [("commented".toList, GoVal.str "; ".toList)])])]
          [("s".toList, GoVal.map [("a".toList, GoVal.str "1".toList),
            ("c".toList, GoVal.map [("commented".toList, GoVal.str "; ".toList)])])]).IsEmpty =
        true :=
  ⟨rfl, claim_C4_flatdiff_empty _ rfl⟩

/-- Counterexample to C4 as stated: a map holding the `deleted:true`
sentinel leaf diffs against itself as a removal, so the diff is not empty. -/
theorem claim_C4_counterexample :
    (ComputeFlatDiff [("x".toList, GoVal.map [("deleted".toList, GoVal.bool true)])]
        [("x".toList, GoVal.map [("deleted".toList, GoVal.bool true)])]).IsEmpty = false ∧
      (ComputeFlatDiff [("x".toList, GoVal.map [("deleted".toList, GoVal.bool true)])]
          [("x".toList, GoVal.map [("deleted".toList, GoVal.bool true)])]).Removed =
        ["x".toList] := by
  constructor
  · rfl
  · rfl

/-! ## Claim C7 -/

theorem reconcileTarget_dryRun_no_apply (env : EngineEnv) (t : Target) (n : List Char) :
    REvent.applyCall n ∉ (reconcileTarget env true t).1 := by
  unfold reconcileTarget
  by_cases h1 : env.hasExecutor t.ttype = false
  · simp [h1]
  · rw [if_neg h1]
    cases hc : env.currentState t.name with
    | error e => simp
    | ok cur =>
      by_cases hemp : (ComputeDiffWithCurrent t.name t.desiredContent cur).IsEmpty = true
      · simp [hemp]
      · simp [hemp]

/-- Claim C7: with dry-run enabled, reconciling any list of targets never
invokes `Apply`; a target with a non-empty diff has its diff printed
instead, and an empty diff only logs that there are no changes. -/
theorem claim_C7_dry_run (env : EngineEnv) :
    (∀ (ts : List Target) (n : List Char),
        REvent.applyCall n ∉ (reconcile env true ts).1) ∧
      (∀ (t : Target) (cur : GoMapL), env.hasExecutor t.ttype = true →
        env.currentState t.name = Except.ok cur →
        (ComputeDiffWithCurrent t.name t.desiredContent cur).IsEmpty = false →
        reconcileTarget env true t = ([REvent.printDiff t.name], none)) ∧
      (∀ (t : Target) (cur : GoMapL), env.hasExecutor t.ttype = true →
        env.currentState t.name = Except.ok cur →
        (ComputeDiffWithCurrent t.name t.desiredContent cur).IsEmpty = true →
        reconcileTarget env true t = ([REvent.noChanges t.name], none)) := by
  refine ⟨?_, ?_, ?_⟩
  · intro ts
    induction ts with
    | nil => intro n; simp [reconcile]
    | cons t rest ih =>
      intro n
      rw [reconcile]
      cases hr : (reconcileTarget env true t).2 with
      | some e =>
        simpa using reconcileTarget_dryRun_no_apply env t n
      | none =>
        intro hmem
        rcases List.mem_append.mp hmem with hmem | hmem
        · exact reconcileTarget_dryRun_no_apply env t n hmem
        · exact ih n hmem
  · intro t cur hex hcur hne
    unfold reconcileTarget
    rw [if_neg (by simp [hex]), hcur]
    simp [hne]
  · intro t cur hex hcur hemp
    unfold reconcileTarget
    rw [if_neg (by simp [hex]), hcur]
    simp [hemp]

/-- A trivial environment for the C7 witness: every executor exists, current
state is empty, `Apply` would succeed. -/
def c7Env : EngineEnv :=
  { hasExecutor := fun _ => true
    currentState := fun _ => Except.ok []
    applyResult := fun _ => Except.ok () }

/-- The file config for the C7 witness target. -/
def c7FileConfig : FileConfig :=
  { path := "/tmp/a".toList
    format := "ini".toList
    content := [("a".toList, .str "1".toList)] }

/-- A concrete file target whose desired content is non-empty. -/
def c7Target : Target :=
  { name := "web".toList, config := .file c7FileConfig }

/-- Witness for C7: in the trivial environment, the dry-run reconciliation
of the concrete target prints the diff and performs no apply call. -/
theorem claim_C7_dry_run_witness :
    c7Env.hasExecutor c7Target.ttype = true ∧
      c7Env.currentState c7Target.name = Except.ok [] ∧
      (ComputeDiffWithCurrent c7Target.name c7Target.desiredContent []).IsEmpty = false ∧
      reconcileTarget c7Env true c7Target = ([REvent.printDiff c7Target.name], none) :=
  ⟨rfl, rfl, by decide,
    (claim_C7_dry_run c7Env).2.1 c7Target [] rfl rfl (by decide)⟩

/-! ## Claim C8 -/

/-- Claim C8 (amended): two configuration files defining like-named targets
of the same type merge into a single target — for the file, dconf and
systemd types.  (For sed targets the loader's merge switch has no case and
loading fails; see the counterexample.) -/
theorem claim_C8_duplicate_merge (t1 t2 : Target) (hname : t1.name = t2.name)
    (htype : t1.ttype = t2.ttype) (hnotsed : t1.ttype ≠ "sed".toList) :
    ∃ m, mergeTargets t1 t2 = Except.ok m ∧
      loadTargets [[t1], [t2]] = Except.ok [m] ∧ m.name = t1.name := by
  have hok : ∃ m, mergeTargets t1 t2 = Except.ok m ∧ m.name = t1.name := by
    obtain ⟨n1, md1, c1⟩ := t1
    obtain ⟨n2, md2, c2⟩ := t2
    cases c1 with
    | file a =>
      cases c2 with
      | file b => exact ⟨_, rfl, rfl⟩
      | dconf b =>
        exact absurd htype (by decide : ¬(("file".toList : List Char) = "dconf".toList))
      | systemd b =>
        exact absurd htype (by decide : ¬(("file".toList : List Char) = "systemd".toList))
      | sed b =>
        exact absurd htype (by decide : ¬(("file".toList : List Char) = "sed".toList))
    | dconf a =>
      cases c2 with
      | file b =>
        exact absurd htype (by decide : ¬(("dconf".toList : List Char) = "file".toList))
      | dconf b => exact ⟨_, rfl, rfl⟩
      | systemd b =>
        exact absurd htype (by decide : ¬(("dconf".toList : List Char) = "systemd".toList))
      | sed b =>
        exact absurd htype (by decide : ¬(("dconf".toList : List Char) = "sed".toList))
    | systemd a =>
      cases c2 with
      | file b =>
        exact absurd htype (by decide : ¬(("systemd".toList : List Char) = "file".toList))
      | dconf b =>
        exact absurd htype (by decide : ¬(("systemd".toList : List Char) = "dconf".toList))
      | systemd b => exact ⟨_, rfl, rfl⟩
      | sed b =>
        exact absurd htype (by decide : ¬(("systemd".toList : List Char) = "sed".toList))
    | sed a => exact absurd rfl hnotsed
  obtain ⟨m, hm, hmn⟩ := hok
  refine ⟨m, hm, ?_, hmn⟩
  have h2 : insertTarget [t1] t2 = Except.ok [m] := by
    rw [insertTarget, if_pos hname, hm]
    rfl
  unfold loadTargets
  have hflat : List.flatten [[t1], [t2]] = [t1, t2] := by simp
  rw [hflat]
  show loadTargetsGo [t1] [t2] = Except.ok [m]
  rw [loadTargetsGo, h2]
  rfl

/-- Witness for C8: two like-named file targets merge; the loaded list holds
the single merged target. -/
theorem claim_C8_duplicate_merge_witness :
    ("web".toList : List Char) = "web".toList ∧
      (Target.ttype { name := "web".toList, config := .file { path := "/a".toList } } =
        Target.ttype { name := "web".toList, config := .file { format := "ini".toList } }) ∧
      Target.ttype { name := "web".toList, config := .file { path := "/a".toList } } ≠
        "sed".toList ∧
      ∃ m, mergeTargets { name := "web".toList, config := .file { path := "/a".toList } }
          { name := "web".toList, config := .file { format := "ini".toList } } =
          Except.ok m ∧
        loadTargets [[{ name := "web".toList, config := .file { path := "/a".toList } }],
            [{ name := "web".toList, config := .file { format := "ini".toList } }]] =
          Except.ok [m] ∧
        m.name = "web".toList :=
  ⟨rfl, rfl, by decide,
    claim_C8_duplicate_merge _ _ rfl rfl (by decide)⟩

/-- A concrete sed target used to refute C8 as stated. -/
def c8Sed : Target :=
  { name := "fix".toList
    config := .sed { path := "/tmp/f".toList, commands := ["s/a/b/".toList] } }

/-- Counterexample to C8 as stated: loading two configuration files that
both define the sed target `fix` fails with the merge error instead of
producing a merged target. -/
theorem claim_C8_counterexample :
    loadTargets [[c8Sed], [c8Sed]] =
      Except.error "unsupported target type for merging: sed".toList := rfl

/-! ## Claim C9 -/

theorem lookupA_deepMergeEntries_isSome :
    ∀ (nm em : GoMapL) (k : List Char),
      ((lookupA em k).isSome = true ∨ (lookupA nm k).isSome = true) →
      (lookupA (deepMergeEntries em nm) k).isSome = true := by
  intro nm
  induction nm with
  | nil =>
    intro em k h
    rw [deepMergeEntries]
    rcases h with h | h
    · exact h
    · simp [lookupA] at h
  | cons p rest ih =>
    intro em k h
    obtain ⟨k0, nv⟩ := p
    rw [deepMergeEntries]
    apply ih
    by_cases hk : k0 = k
    · left
      cases hl : lookupA em k0 with
      | some ev => rw [lookupA_insertA, if_pos hk]; rfl
      | none => rw [lookupA_insertA, if_pos hk]; rfl
    · rcases h with h | h
      · left
        cases hl : lookupA em k0 with
        | some ev => rw [lookupA_insertA, if_neg hk]; exact h
        | none => rw [lookupA_insertA, if_neg hk]; exact h
      · right
        rw [lookupA, if_neg hk] at h
        exact h

/-- Claim C9 (amended): merging a second file-target config deep-merges the
`content` and `options` maps (keys present on either side survive),
overwrites each scalar field only when the incoming value is non-empty, and
leaves the `backup` flag equal to the existing config's flag — the incoming
`backup` value is ignored, the Go function having no clause for it. -/
theorem claim_C9_file_merge (ex newT : FileConfig) :
    (fileMergeConfig ex newT).content = deepMergeEntries ex.content newT.content ∧
      (fileMergeConfig ex newT).options = deepMergeEntries ex.options newT.options ∧
      (fileMergeConfig ex newT).path = (if newT.path = [] then ex.path else newT.path) ∧
      (fileMergeConfig ex newT).format = (if newT.format = [] then ex.format else newT.format) ∧
      (fileMergeConfig ex newT).owner = (if newT.owner = [] then ex.owner else newT.owner) ∧
      (fileMergeConfig ex newT).group = (if newT.group = [] then ex.group else newT.group) ∧
      (fileMergeConfig ex newT).mode = (if newT.mode = [] then ex.mode else newT.mode) ∧
      (fileMergeConfig ex newT).backup = ex.backup ∧
      (∀ k : List Char,
        ((lookupA ex.content k).isSome = true ∨ (lookupA newT.content k).isSome = true) →
        (lookupA (fileMergeConfig ex newT).content k).isSome = true) := by
  refine ⟨rfl, rfl, ?_, ?_, ?_, ?_, ?_, rfl, ?_⟩
  · by_cases h : newT.path = [] <;> simp [fileMergeConfig, h]
  · by_cases h : newT.format = [] <;> simp [fileMergeConfig, h]
  · by_cases h : newT.owner = [] <;> simp [fileMergeConfig, h]
  · by_cases h : newT.group = [] <;> simp [fileMergeConfig, h]
  · by_cases h : newT.mode = [] <;> simp [fileMergeConfig, h]
  · intro k h
    exact lookupA_deepMergeEntries_isSome newT.content ex.content k h

/-- The existing file config of the C9 scenario: backup disabled. -/
def c9Existing : FileConfig :=
  { path := "/etc/app.conf".toList, format := "ini".toList,
    content := [("s".toList, .map [("a".toList, .str "1".toList)])], backup := false }

/-- The incoming file config of the C9 scenario: backup enabled, new nested
content. -/
def c9Incoming : FileConfig :=
  { content := [("s".toList, .map [("b".toList, .str "2".toList)])], backup := true }

/-- Witness for C9: the amended merge description applied to the concrete
configs, with the key-preservation conjunct instantiated at key `s`. -/
theorem claim_C9_file_merge_witness :
    ((lookupA c9Existing.content "s".toList).isSome = true ∨
        (lookupA c9Incoming.content "s".toList).isSome = true) ∧
      (lookupA (fileMergeConfig c9Existing c9Incoming).content "s".toList).isSome = true ∧
      (fileMergeConfig c9Existing c9Incoming).backup = false :=
  ⟨Or.inl rfl,
    (claim_C9_file_merge c9Existing c9Incoming).2.2.2.2.2.2.2.2 "s".toList (Or.inl rfl),
    rfl⟩

/-- Counterexample to C9 as stated: the incoming config has `backup = true`
but the merged config keeps the existing `false` — the merged flag is not
the disjunction of the two. -/
theorem claim_C9_counterexample :
    c9Incoming.backup = true ∧ (fileMergeConfig c9Existing c9Incoming).backup = false :=
  ⟨rfl, rfl⟩
